import Mathlib

/-!
Verification development for the pawnai-recorder capture pipeline.

The definitions below are shallow embeddings of the Python sources in
`src/pawnai_recorder/core/` (`processing.py`, `s3_upload.py`, `log.py`,
`recording.py`, `config.py`).  Conventions:

* byte buffers are `List Nat` (one entry per byte), int16 samples are `ℤ`;
* the float multiply in `apply_gain` and the float divisions producing
  chunk durations are idealised as exact rational arithmetic; a reported
  `round(x, 3)` value is represented by the integer `1000·x` rounded
  half-to-even (Python's `round`), so all recorded values are integers;
* the dB computation of `calculate_db_level` is embedded over `ℝ`;
* the threaded `MicrophoneStream` machinery is embedded as a small-step
  state machine whose scheduler actions model the capture callback, the
  background chunk-save threads, and the start/stop path of the main
  thread; buffer contents are abstracted to buffer counts there, since no
  lifecycle claim depends on the audio payload.
-/

/-! ### `processing.apply_gain` (processing.py lines 60-87) -/

/-- Interpret `u` (a little-endian byte pair value `b0 + 256*b1`) as a
signed int16, mirroring `np.frombuffer(..., dtype=np.int16)`. -/
def toSigned16 (u : Nat) : ℤ :=
  if u < 32768 then (u : ℤ) else (u : ℤ) - 65536

/-- Decode a byte list into int16 samples, little endian, two bytes per
sample (`np.frombuffer(audio_data, dtype=np.int16)`); a trailing odd byte
cannot occur on the paths where this is used. -/
def decodeInt16 : List Nat → List ℤ
  | b0 :: b1 :: rest => toSigned16 (b0 % 256 + 256 * (b1 % 256)) :: decodeInt16 rest
  | _ => []

/-- Encode int16 samples back to little-endian bytes (`ndarray.tobytes()`). -/
def encodeInt16 : List ℤ → List Nat
  | [] => []
  | v :: rest => ((v % 65536).toNat % 256) :: ((v % 65536).toNat / 256) :: encodeInt16 rest

/-- Two's-complement wraparound into the int16 range: the behaviour of
numpy's `astype(np.int16)` on an out-of-range value (faithful for scaled
values that fit the intermediate machine integer, which covers every
input appearing in this development). -/
def wrap16 (t : ℤ) : ℤ :=
  (t + 32768) % 65536 - 32768

/-- One sample of `apply_gain`'s array expression: multiply by the gain
factor in exact arithmetic (idealising the float32 multiply), cast to
int16 — C-style truncation toward zero (`Int.tdiv` by the gain's positive
denominator) followed by wraparound — then `np.clip(·, -32767, 32767)`.
Note the clip is applied after the cast, exactly as in the source. -/
def gainSample (gain_factor : ℚ) (v : ℤ) : ℤ :=
  min 32767 (max (-32767) (wrap16 ((v * gain_factor.num).tdiv gain_factor.den)))

/-- Embedding of `processing.apply_gain`.  A gain of exactly `1.0`
returns the input unchanged.  Otherwise the bytes are reinterpreted as
int16 samples; when the byte count is not a multiple of two,
`np.frombuffer` raises `ValueError`, the `except` branch logs and
swallows it, and the original bytes are returned.  Otherwise each sample
is scaled, cast and clipped, and the result re-encoded as bytes. -/
def apply_gain (audio_data : List Nat) (gain_factor : ℚ) : List Nat :=
  if gain_factor = 1 then audio_data
  else if audio_data.length % 2 ≠ 0 then audio_data
  else encodeInt16 ((decodeInt16 audio_data).map (gainSample gain_factor))

/-! ### `processing.calculate_db_level` (processing.py lines 13-42) -/

/-- RMS-to-dB mapping over int16 samples: `rms = sqrt(mean(x²))`; when
`rms > 0`, `db = 20·log10(rms/32768)` normalised by
`max(0, min(120, db + 120))`; otherwise (silence, or the NaN produced by
the mean of an empty array) the result is `0`. -/
noncomputable def dbOfSamples (samples : List ℤ) : ℝ :=
  let rms := Real.sqrt (((samples.map fun (s : ℤ) => ((s : ℝ)) ^ 2).sum) / samples.length)
  if 0 < rms then max 0 (min 120 (20 * Real.logb 10 (rms / 32768) + 120)) else 0

/-- Embedding of `processing.calculate_db_level` on raw bytes: an odd
byte count makes `np.frombuffer` raise, the `except` branch returns `0`;
otherwise the bytes are decoded to int16 samples and mapped to dB. -/
noncomputable def calculate_db_level (audio_data : List Nat) : ℝ :=
  if audio_data.length % 2 ≠ 0 then 0 else dbOfSamples (decodeInt16 audio_data)

/-! ### `s3_upload._normalize_segment` and `s3_upload.build_object_key`
(s3_upload.py lines 11-37).  Character-list implementations are used so
that every string operation is a structural recursion the kernel can
evaluate; `String.mk`/`String.toList` mediate. -/

/-- `value.replace("\\", "/")`: single-character replacement. -/
def replaceBackslash (s : List Char) : List Char :=
  s.map fun c => if c = '\\' then '/' else c

/-- Python's `str.split('/')` (`"".split('/') == [""]`, adjacent
separators produce empty fields). -/
def splitSlash : List Char → List (List Char)
  | [] => [[]]
  | c :: rest =>
    let r := splitSlash rest
    if c = '/' then [] :: r
    else
      match r with
      | h :: t => (c :: h) :: t
      | [] => [[c]]

/-- `"/".join(parts)`. -/
def joinSlash : List (List Char) → List Char
  | [] => []
  | [x] => x
  | x :: xs => x ++ '/' :: joinSlash xs

/-- Embedding of `s3_upload._normalize_segment`: convert backslashes to
forward slashes, split on `/`, drop empty fields, re-join with `/`. -/
def normalize_segment (value : String) : String :=
  ⟨joinSlash (((splitSlash (replaceBackslash value.toList))).filter (fun p => p ≠ []))⟩

/-- Python `pathlib.Path(filename).name` restricted to plain relative
POSIX paths (no `.`/`..` components): the last nonempty `/`-separated
component, or the empty string when there is none. -/
def pathBaseName (filename : String) : String :=
  ⟨(((splitSlash filename.toList).filter (fun p => p ≠ [])).getLast?).getD []⟩

/-- Embedding of `s3_upload.build_object_key`: collect the normalized
bucket prefix (when truthy and nonempty after normalization), the
normalized conversation id (same conditions), the normalized session id,
and the basename of the local file, then join with `/`.  The Python
keyword `prefix` is rendered `pfx` here. -/
def build_object_key (filename session_id : String) (conversation_id : Option String)
    (pfx : String) : String :=
  let parts : List (List Char) := []
  let parts := if pfx ≠ "" then
      (let np := normalize_segment pfx
       if np ≠ "" then parts ++ [np.toList] else parts)
    else parts
  let parts :=
    match conversation_id with
    | some cid =>
        if cid ≠ "" then
          (let nc := normalize_segment cid
           if nc ≠ "" then parts ++ [nc.toList] else parts)
        else parts
    | none => parts
  let parts := parts ++ [(normalize_segment session_id).toList]
  let parts := parts ++ [(pathBaseName filename).toList]
  ⟨joinSlash parts⟩

/-! ### `config.py` constants and the MP3 validation of
`MicrophoneStream.__init__` (recording.py lines 174-183) -/

def MP3_REQUIRED_RATE : Nat := 16000

def MP3_REQUIRED_CHANNELS : Nat := 1

/-- `config.CHANNEL`, the module-level channel-count constant that
`MicrophoneStream.__init__` compares against `MP3_REQUIRED_CHANNELS`. -/
def CHANNEL : Nat := 1

/-- ASCII lower-casing of one character (`str.lower` restricted to the
ASCII format names used by the recorder). -/
def lowerChar (c : Char) : Char :=
  if 'A' ≤ c ∧ c ≤ 'Z' then Char.ofNat (c.toNat + 32) else c

/-- `file_format.lower()` for ASCII format names. -/
def lowerString (s : String) : String :=
  ⟨s.toList.map lowerChar⟩

/-- The validation performed at the top of `MicrophoneStream.__init__`:
when the requested format lower-cases to `"mp3"`, a sample rate different
from `MP3_REQUIRED_RATE` raises `ValueError`, then a channel count
different from `MP3_REQUIRED_CHANNELS` raises `ValueError`; any other
format passes.  The raised error is embedded as `Except.error`. -/
def validate_format (file_format : String) (rate channels : Nat) : Except String Unit :=
  if lowerString file_format = "mp3" then
    if rate ≠ MP3_REQUIRED_RATE then
      Except.error "MP3 format requires 16000Hz sample rate"
    else if channels ≠ MP3_REQUIRED_CHANNELS then
      Except.error "MP3 format requires 1 channel (mono)"
    else Except.ok ()
  else Except.ok ()

/-! ### Python `round(x, 3)` as integer thousandths -/

/-- Round-half-to-even of the fraction `a / b` (for `b > 0`), Python's
`round` on an exact rational: with `a = q·b + r`, `0 ≤ r < b`, the result
is `q` when `r/b < 1/2`, `q+1` when `r/b > 1/2`, and the even neighbour
on a tie. -/
def halfEvenDiv (a : ℤ) (b : Nat) : ℤ :=
  let q := a.fdiv b
  let r := a.fmod b
  if 2 * r < (b : ℤ) then q
  else if (b : ℤ) < 2 * r then q + 1
  else if q % 2 = 0 then q else q + 1

/-! ### `MicrophoneStream` session lifecycle (recording.py lines 131-452)

The threaded recorder is embedded as a small-step state machine.  Buffer
contents are abstracted to buffer counts: `_recording_frames` becomes the
number of buffered callback deliveries, and a handed-off chunk keeps only
its 1-based index and its buffer count.  Durations:
`duration_sec = len(frames) * self._chunk / self._rate` (recording.py
line 421), so a chunk of `nbuf` buffers contributes `nbuf * fpb` frames
and its reported (3-decimal-rounded) duration is the integer number of
thousandths `halfEvenDiv (1000 * nbuf * fpb) rate`.  The accumulated
`_total_duration_sec` is kept exactly as a frame count `totalFrames`.
The `assigned` field is a ghost history variable recording, in hand-off
order, the chunk index given to each handed-off buffer; it affects no
transition. -/

/-- Configuration of one `MicrophoneStream`: session id, the
`RECORDING_CHUNK_SIZE` flush threshold (buffers per saved file), the
PyAudio buffer size `self._chunk` in frames, and the sample rate. -/
structure Cfg where
  sid : String
  chunkSize : Nat
  fpb : Nat
  rate : Nat
deriving DecidableEq

/-- One line of the JSONL recording log (`log.py`), restricted to the
fields the claims are about.  Durations are in exact thousandths of a
second, the value of Python's `round(x, 3)`. -/
inductive LogRec where
  | sessionStart (session_id : String)
  | chunkRec (session_id : String) (chunk_index : Nat) (duration_milli : ℤ)
  | sessionEnd (session_id : String) (total_milli : ℤ) (chunk_count : Nat)
deriving DecidableEq

/-- Program counter of the main thread through
`start_recording`/`stop_recording`: `created` (constructed), `opened`
(the PyAudio stream is open, callbacks may fire, the session-start
record is not yet written), `started` (session-start written), `draining`
(stop has closed the stream and flushed the partial buffer), `stopped`
(session-end written). -/
inductive Phase where
  | created | opened | started | draining | stopped
deriving DecidableEq

/-- A chunk handed to a background saving thread: its 1-based index and
the number of callback buffers it contains. -/
structure SaveTask where
  idx : Nat
  nbuf : Nat
deriving DecidableEq

/-- The shared mutable state of one `MicrophoneStream`. -/
structure RecState where
  phase : Phase
  frames : Nat
  count : Nat
  pending : List SaveTask
  totalFrames : Nat
  log : List LogRec
  assigned : List Nat
deriving DecidableEq

/-- State of a freshly constructed stream. -/
def initState : RecState :=
  ⟨Phase.created, 0, 0, [], 0, [], []⟩

/-- Hand the accumulated buffer off to a new saving thread: swap in an
empty buffer, increment `_count`, and enqueue the save task (the shared
code of `_fill_buffer`'s threshold branch and `stop_recording`'s flush,
recording.py lines 309-314 and 357-362). -/
def spawnChunk (s : RecState) : RecState :=
  { s with
    frames := 0
    count := s.count + 1
    pending := s.pending ++ [⟨s.count + 1, s.frames⟩]
    assigned := s.assigned ++ [s.count + 1] }

/-- Reported (3-decimal-rounded) duration of a save task, in
thousandths of a second. -/
def mdur (cfg : Cfg) (t : SaveTask) : ℤ :=
  halfEvenDiv (1000 * (t.nbuf * cfg.fpb) : ℤ) cfg.rate

/-- Effect of one `_save` worker body (recording.py lines 394-452) on the
shared state: add the chunk's nominal duration to `_total_duration_sec`
and append its `chunk` record to the log. -/
def completeTask (cfg : Cfg) (s : RecState) (t : SaveTask) : RecState :=
  { s with
    totalFrames := s.totalFrames + t.nbuf * cfg.fpb
    log := s.log ++ [LogRec.chunkRec cfg.sid t.idx (mdur cfg t)] }

/-- Scheduler actions: `openStream` and `logStart` are the two halves of
`start_recording` (the stream is opened, with the callback registered,
before the session-start record is written); `deliver` is one invocation
of `_fill_buffer`; `flushStop` is `stop_recording` up to and including
the partial-buffer flush; `complete i` is the background save thread of
chunk `i` running to completion; `logEnd` is `stop_recording` writing the
session-end record after the bounded join — it is enabled even while
saves are pending, which models a thread outliving the 30-second join
timeout, and `complete` stays enabled afterwards, which models the
abandoned thread finishing late. -/
inductive Act where
  | openStream | logStart | deliver | flushStop | complete (idx : Nat) | logEnd
deriving DecidableEq

/-- One scheduler step; `none` when the action is not enabled. -/
def step (cfg : Cfg) (s : RecState) : Act → Option RecState
  | Act.openStream =>
      if s.phase = Phase.created then some { s with phase := Phase.opened } else none
  | Act.logStart =>
      if s.phase = Phase.opened then
        some { s with phase := Phase.started
                      log := s.log ++ [LogRec.sessionStart cfg.sid] }
      else none
  | Act.deliver =>
      if s.phase = Phase.opened ∨ s.phase = Phase.started then
        let s1 := { s with frames := s.frames + 1 }
        some (if s1.frames ≥ cfg.chunkSize then spawnChunk s1 else s1)
      else none
  | Act.flushStop =>
      if s.phase = Phase.started then
        some { (if 0 < s.frames then spawnChunk s else s) with phase := Phase.draining }
      else none
  | Act.complete i =>
      match s.pending.find? (fun t => t.idx == i) with
      | some t => some { (completeTask cfg s t) with
                         pending := s.pending.eraseP (fun t => t.idx == i) }
      | none => none
  | Act.logEnd =>
      if s.phase = Phase.draining then
        some { s with phase := Phase.stopped
                      log := s.log ++ [LogRec.sessionEnd cfg.sid
                        (halfEvenDiv (1000 * s.totalFrames : ℤ) cfg.rate) s.count] }
      else none

/-- Run one action from an optional state. -/
def run1 (cfg : Cfg) (os : Option RecState) (a : Act) : Option RecState :=
  os.bind fun s => step cfg s a

/-- Run a trace of scheduler actions from a given state. -/
def runFrom (cfg : Cfg) (s : RecState) (tr : List Act) : Option RecState :=
  tr.foldl (run1 cfg) (some s)

/-- Run a trace from the freshly constructed stream. -/
def run (cfg : Cfg) (tr : List Act) : Option RecState :=
  runFrom cfg initState tr

/-- Number of `deliver` actions (capture callback invocations) in a
trace. -/
def nDeliver : List Act → Nat
  | [] => 0
  | Act.deliver :: tr => nDeliver tr + 1
  | _ :: tr => nDeliver tr

/-! ### Sequential `stop_recording` (recording.py lines 301-329)

For claims about the stop path alone, `stop_recording` is also embedded
as a deterministic function: this is the execution in which every
chunk-saving thread finishes within the 30-second join, so the joins
behave as if each pending save ran during the drain.  The PortAudio
teardown calls (`stop_stream`/`close`/`terminate`) are external to the
repository and have no effect on the modelled state; the method never
resets `self._audio_stream`/`self._audio_interface` and keeps no
stopped flag, so a second call re-executes the entire body. -/

/-- Run the bodies of the listed save threads, in order. -/
def drainList (cfg : Cfg) (s : RecState) : List SaveTask → RecState
  | [] => s
  | t :: ts => drainList cfg (completeTask cfg s t) ts

/-- Embedding of `MicrophoneStream.stop_recording` in the all-joins-
succeed execution: flush the partial buffer if nonempty, wait for (here:
run) every pending save, then write the session-end record with the
accumulated total duration and chunk count. -/
def stop_recording (cfg : Cfg) (s : RecState) : RecState :=
  let s1 := if 0 < s.frames then spawnChunk s else s
  let s2 := drainList cfg { s1 with pending := [] } s1.pending
  { s2 with phase := Phase.stopped
            log := s2.log ++ [LogRec.sessionEnd cfg.sid
              (halfEvenDiv (1000 * s2.totalFrames : ℤ) cfg.rate) s2.count] }

/-- Constructor validation context (`MicrophoneStream.__init__`): the MP3
validation runs in the constructor with the module constant `CHANNEL`,
before `start_recording` — the only place a capture device is opened —
can be reached; a stream state exists only when validation passes. -/
def MicrophoneStream_init (file_format : String) (rate : Nat) : Except String RecState :=
  (validate_format file_format rate CHANNEL).map fun _ => initState

/-- Recognise a `session-end` record. -/
def isSessionEnd : LogRec → Bool
  | LogRec.sessionEnd _ _ _ => true
  | _ => false

/-! ### Helper lemmas about the sequential stop path -/

theorem drainList_frames (cfg : Cfg) (ts : List SaveTask) (s : RecState) :
    (drainList cfg s ts).frames = s.frames := by
  induction ts generalizing s with
  | nil => rfl
  | cons t ts ih => simpa [drainList, completeTask] using ih (completeTask cfg s t)

theorem drainList_pending (cfg : Cfg) (ts : List SaveTask) (s : RecState) :
    (drainList cfg s ts).pending = s.pending := by
  induction ts generalizing s with
  | nil => rfl
  | cons t ts ih => simpa [drainList, completeTask] using ih (completeTask cfg s t)

theorem stop_recording_frames (cfg : Cfg) (s : RecState) :
    (stop_recording cfg s).frames = 0 := by
  by_cases h : 0 < s.frames
  · simp [stop_recording, h, drainList_frames, spawnChunk]
  · simp [stop_recording, h, drainList_frames]
    omega

theorem stop_recording_pending (cfg : Cfg) (s : RecState) :
    (stop_recording cfg s).pending = [] := by
  by_cases h : 0 < s.frames <;> simp [stop_recording, h, drainList_pending]

theorem stop_recording_phase (cfg : Cfg) (s : RecState) :
    (stop_recording cfg s).phase = Phase.stopped := by
  by_cases h : 0 < s.frames <;> simp [stop_recording, h]

/-- C1, counterexample.  A session that is stopped once and then stopped
again: the second `stop_recording` changes the state — it appends a
second `session-end` record, so the log now carries two of them.
(`stop_recording` keeps no stopped flag and re-executes its whole body;
the external PortAudio teardown calls are modelled as returning normally,
which is exactly what happens when the stream handle was never opened or
teardown is benign.) -/
theorem stop_recording_not_idempotent_cex :
    stop_recording ⟨"S", 120, 16000, 16000⟩
        (stop_recording ⟨"S", 120, 16000, 16000⟩
          ⟨Phase.started, 0, 0, [], 0, [LogRec.sessionStart "S"], []⟩) ≠
      stop_recording ⟨"S", 120, 16000, 16000⟩
        ⟨Phase.started, 0, 0, [], 0, [LogRec.sessionStart "S"], []⟩ ∧
    ((stop_recording ⟨"S", 120, 16000, 16000⟩
        (stop_recording ⟨"S", 120, 16000, 16000⟩
          ⟨Phase.started, 0, 0, [], 0, [LogRec.sessionStart "S"], []⟩)).log.countP
        (fun r => isSessionEnd r)) = 2 := by
  constructor
  · decide
  · decide

/-- C1, amended.  `stop` is not idempotent: for every configuration and
every state, a second `stop_recording` saves no additional chunk and
leaves the buffer, chunk counter, pending saves and total duration
unchanged, but appends one more `session-end` record (with the same
total and chunk count as the first) to the log. -/
theorem stop_recording_second_call_appends_session_end (cfg : Cfg) (s : RecState) :
    stop_recording cfg (stop_recording cfg s) =
      { stop_recording cfg s with
        log := (stop_recording cfg s).log ++
          [LogRec.sessionEnd cfg.sid
            (halfEvenDiv (1000 * (stop_recording cfg s).totalFrames : ℤ) cfg.rate)
            (stop_recording cfg s).count] } := by
  have hf := stop_recording_frames cfg s
  have hp := stop_recording_pending cfg s
  have hph := stop_recording_phase cfg s
  rcases hs : stop_recording cfg s with ⟨ph, fr, cn, pe, tf, lg, asg⟩
  rw [hs] at hf hp hph
  simp only at hf hp hph
  subst hf hp hph
  simp [stop_recording, drainList]

/-- C2, code evaluation at the failing input.  `apply_gain` on the
single-sample buffer `0x4E20` (the int16 sample `20000`) with gain `2.0`:
the scaled value `40000` is cast to int16 *before* `np.clip` runs, so it
wraps to `-25536`; the output is not the saturated sample `32767` the
specification promises, and its sign has flipped. -/
theorem apply_gain_wraps_not_clamps :
    decodeInt16 (apply_gain [32, 78] 2) = [-25536] ∧
    apply_gain [32, 78] 2 ≠ encodeInt16 [32767] := by
  constructor
  · decide
  · decide

/-- C10.  `apply_gain` is total: with any gain factor different from
`1.0` and any byte buffer whose length is not a multiple of the 2-byte
sample width, the `np.frombuffer` conversion failure is caught and the
original input bytes are returned unchanged. -/
theorem apply_gain_odd_length_returns_input
    (audio_data : List Nat) (gain_factor : ℚ)
    (hg : gain_factor ≠ 1) (hl : audio_data.length % 2 = 1) :
    apply_gain audio_data gain_factor = audio_data := by
  simp [apply_gain, hg, hl]

theorem apply_gain_odd_length_returns_input_witness :
    (2 : ℚ) ≠ 1 ∧ [1, 2, 3].length % 2 = 1 ∧ apply_gain [1, 2, 3] 2 = [1, 2, 3] :=
  ⟨by decide, by decide,
    apply_gain_odd_length_returns_input [1, 2, 3] 2 (by decide) (by decide)⟩

/-- C8.  The object key is `[prefix/][conversation/]session_id/filename`
with every segment normalized (backslashes to forward slashes, empty
fields dropped): the general layout when the optional segments are
present and survive normalization, the layout without them, the two
concrete evaluations stated by the specification, and normalization on a
segment containing backslashes and empty fields. -/
theorem build_object_key_layout :
    (∀ (f sid cid p : String), p ≠ "" → normalize_segment p ≠ "" →
      cid ≠ "" → normalize_segment cid ≠ "" →
      build_object_key f sid (some cid) p =
        ⟨(normalize_segment p).toList ++ '/' :: (normalize_segment cid).toList ++
          '/' :: (normalize_segment sid).toList ++ '/' :: (pathBaseName f).toList⟩) ∧
    (∀ (f sid : String), build_object_key f sid none "" =
        ⟨(normalize_segment sid).toList ++ '/' :: (pathBaseName f).toList⟩) ∧
    build_object_key "a/f.flac" "S" none "" = "S/f.flac" ∧
    build_object_key "a/f.flac" "S" (some "G") "P" = "P/G/S/f.flac" ∧
    normalize_segment "a\\b//c" = "a/b/c" := by
  refine ⟨?_, ?_, by decide, by decide, by decide⟩
  · intro f sid cid p hp hnp hc hnc
    simp [build_object_key, hp, hnp, hc, hnc, joinSlash]
  · intro f sid
    simp [build_object_key, joinSlash]

theorem build_object_key_layout_witness :
    ("P" : String) ≠ "" ∧ normalize_segment "P" ≠ "" ∧
    ("G" : String) ≠ "" ∧ normalize_segment "G" ≠ "" ∧
    build_object_key "a/f.flac" "S" (some "G") "P" =
      ⟨(normalize_segment "P").toList ++ '/' :: (normalize_segment "G").toList ++
        '/' :: (normalize_segment "S").toList ++ '/' :: (pathBaseName "a/f.flac").toList⟩ :=
  ⟨by decide, by decide, by decide, by decide,
    build_object_key_layout.1 "a/f.flac" "S" "G" "P"
      (by decide) (by decide) (by decide) (by decide)⟩

/-- C9.  With the lossy (MP3) format: a sample rate different from the
fixed required rate makes construction fail with the configuration error
(before `start_recording`, the only device-opening path, can run); a
channel count different from the fixed required channel count fails the
same validation; with the required rate, and the module channel constant
equal to the required channel count, construction succeeds. -/
theorem mp3_validation (file_format : String) (rate channels : Nat)
    (hfmt : lowerString file_format = "mp3") :
    (rate ≠ MP3_REQUIRED_RATE →
      ∃ e, MicrophoneStream_init file_format rate = Except.error e) ∧
    (channels ≠ MP3_REQUIRED_CHANNELS →
      ∃ e, validate_format file_format MP3_REQUIRED_RATE channels = Except.error e) ∧
    (rate = MP3_REQUIRED_RATE →
      MicrophoneStream_init file_format rate = Except.ok initState) := by
  refine ⟨fun h => ⟨"MP3 format requires 16000Hz sample rate", ?_⟩,
    fun h => ⟨"MP3 format requires 1 channel (mono)", ?_⟩, fun h => ?_⟩
  · simp [MicrophoneStream_init, validate_format, hfmt, h, Except.map]
  · simp [validate_format, hfmt, h]
  · subst h
    simp [MicrophoneStream_init, validate_format, hfmt, CHANNEL,
      MP3_REQUIRED_CHANNELS, Except.map]

theorem mp3_validation_witness :
    lowerString "MP3" = "mp3" ∧
    (∃ e, MicrophoneStream_init "MP3" 44100 = Except.error e) ∧
    (∃ e, validate_format "MP3" MP3_REQUIRED_RATE 2 = Except.error e) ∧
    MicrophoneStream_init "MP3" 16000 = Except.ok initState :=
  ⟨by decide,
    (mp3_validation "MP3" 44100 2 (by decide)).1 (by decide),
    (mp3_validation "MP3" 44100 2 (by decide)).2.1 (by decide),
    (mp3_validation "MP3" 16000 2 (by decide)).2.2 (by decide)⟩

/-! ### Trace decomposition helpers -/

theorem run_append_one (cfg : Cfg) (tr : List Act) (a : Act) :
    run cfg (tr ++ [a]) = (run cfg tr).bind (fun s => step cfg s a) := by
  simp [run, runFrom, List.foldl_append, run1]

theorem nDeliver_append (ts tr : List Act) :
    nDeliver (ts ++ tr) = nDeliver ts + nDeliver tr := by
  induction ts with
  | nil => simp [nDeliver]
  | cons a ts ih => cases a <;> simp [nDeliver, ih, Nat.add_right_comm]

/-- C6.  In every reachable state, the chunk indices assigned at hand-off
(the ghost `assigned` history, in capture order) are exactly
`1, 2, …, count`: strictly increasing, no gaps, no repeats.  The theorem
quantifies over all traces, hence over every interleaving of save-thread
completions — index assignment is independent of completion order. -/
theorem chunk_indices_exact (cfg : Cfg) (tr : List Act) (s : RecState)
    (h : run cfg tr = some s) : s.assigned = List.range' 1 s.count := by
  induction tr using List.reverseRecOn generalizing s with
  | nil =>
    simp only [run, runFrom, List.foldl_nil, Option.some.injEq] at h
    subst h
    rfl
  | append_singleton ts a ih =>
    rw [run_append_one] at h
    obtain ⟨s0, h0, hstep⟩ := Option.bind_eq_some.mp h
    have ih0 := ih s0 h0
    cases a with
    | openStream =>
      simp only [step, Option.ite_none_right_eq_some, Option.some.injEq] at hstep
      obtain ⟨-, rfl⟩ := hstep
      simpa using ih0
    | logStart =>
      simp only [step, Option.ite_none_right_eq_some, Option.some.injEq] at hstep
      obtain ⟨-, rfl⟩ := hstep
      simpa using ih0
    | deliver =>
      simp only [step, Option.ite_none_right_eq_some, Option.some.injEq] at hstep
      obtain ⟨-, rfl⟩ := hstep
      by_cases hth : s0.frames + 1 ≥ cfg.chunkSize
      · simp only [hth, if_pos, spawnChunk, ih0]
        rw [List.range'_concat]
        simp [Nat.add_comm]
      · simpa [hth] using ih0
    | flushStop =>
      simp only [step, Option.ite_none_right_eq_some, Option.some.injEq] at hstep
      obtain ⟨-, rfl⟩ := hstep
      by_cases hfr : 0 < s0.frames
      · simp only [hfr, if_pos, spawnChunk, ih0]
        rw [List.range'_concat]
        simp [Nat.add_comm]
      · simpa [hfr] using ih0
    | complete i =>
      simp only [step] at hstep
      rcases hfind : s0.pending.find? (fun t => t.idx == i) with _ | t
      · rw [hfind] at hstep
        simp at hstep
      · rw [hfind] at hstep
        simp only [Option.some.injEq] at hstep
        subst hstep
        simpa [completeTask] using ih0
    | logEnd =>
      simp only [step, Option.ite_none_right_eq_some, Option.some.injEq] at hstep
      obtain ⟨-, rfl⟩ := hstep
      simpa using ih0

theorem chunk_indices_exact_witness :
    run ⟨"S", 2, 16000, 16000⟩
        [Act.openStream, Act.logStart, Act.deliver, Act.deliver, Act.deliver] =
      some ⟨Phase.started, 1, 1, [⟨1, 2⟩], 0, [LogRec.sessionStart "S"], [1]⟩ ∧
    (⟨Phase.started, 1, 1, [⟨1, 2⟩], 0, [LogRec.sessionStart "S"], [1]⟩ :
        RecState).assigned =
      List.range' 1 (⟨Phase.started, 1, 1, [⟨1, 2⟩], 0,
        [LogRec.sessionStart "S"], [1]⟩ : RecState).count :=
  ⟨by decide,
    chunk_indices_exact ⟨"S", 2, 16000, 16000⟩
      [Act.openStream, Act.logStart, Act.deliver, Act.deliver, Act.deliver] _
      (by decide)⟩

/-- Capture-phase invariant: before `stop_recording` runs (phase at most
`started`), the chunk counter and the buffered frame count decompose the
number of callback deliveries by the flush threshold. -/
theorem capture_decomposition (cfg : Cfg) (hc : 0 < cfg.chunkSize)
    (tr : List Act) (s : RecState) (h : run cfg tr = some s)
    (hph : s.phase ≠ Phase.draining ∧ s.phase ≠ Phase.stopped) :
    s.count * cfg.chunkSize + s.frames = nDeliver tr ∧ s.frames < cfg.chunkSize := by
  induction tr using List.reverseRecOn generalizing s with
  | nil =>
    simp only [run, runFrom, List.foldl_nil, Option.some.injEq] at h
    subst h
    simpa [initState, nDeliver] using hc
  | append_singleton ts a ih =>
    rw [run_append_one] at h
    obtain ⟨s0, h0, hstep⟩ := Option.bind_eq_some.mp h
    cases a with
    | openStream =>
      simp only [step, Option.ite_none_right_eq_some, Option.some.injEq] at hstep
      obtain ⟨hc0, rfl⟩ := hstep
      have := ih s0 h0 (by rw [hc0]; exact ⟨by simp, by simp⟩)
      simpa [nDeliver_append, nDeliver] using this
    | logStart =>
      simp only [step, Option.ite_none_right_eq_some, Option.some.injEq] at hstep
      obtain ⟨hc0, rfl⟩ := hstep
      have := ih s0 h0 (by rw [hc0]; exact ⟨by simp, by simp⟩)
      simpa [nDeliver_append, nDeliver] using this
    | deliver =>
      simp only [step, Option.ite_none_right_eq_some, Option.some.injEq] at hstep
      obtain ⟨hc0, rfl⟩ := hstep
      have h01 : s0.phase ≠ Phase.draining ∧ s0.phase ≠ Phase.stopped := by
        rcases hc0 with h' | h' <;> rw [h'] <;> exact ⟨by simp, by simp⟩
      obtain ⟨ihd, ihlt⟩ := ih s0 h0 h01
      by_cases hth : s0.frames + 1 ≥ cfg.chunkSize
      · have hfr : s0.frames + 1 = cfg.chunkSize := by omega
        simp only [nDeliver_append, nDeliver]
        simp only [spawnChunk, hth, if_pos, Nat.add_mul, Nat.one_mul]
        omega
      · simp only [nDeliver_append, nDeliver]
        simp only [hth, if_neg, not_false_iff]
        omega
    | flushStop =>
      simp only [step, Option.ite_none_right_eq_some, Option.some.injEq] at hstep
      obtain ⟨-, rfl⟩ := hstep
      simp at hph
    | complete i =>
      simp only [step] at hstep
      rcases hfind : s0.pending.find? (fun t => t.idx == i) with _ | t
      · rw [hfind] at hstep
        simp at hstep
      · rw [hfind] at hstep
        simp only [Option.some.injEq] at hstep
        subst hstep
        have h01 : s0.phase ≠ Phase.draining ∧ s0.phase ≠ Phase.stopped := by
          simpa [completeTask] using hph
        have := ih s0 h0 h01
        simpa [completeTask, nDeliver_append, nDeliver] using this
    | logEnd =>
      simp only [step, Option.ite_none_right_eq_some, Option.some.injEq] at hstep
      obtain ⟨-, rfl⟩ := hstep
      simp at hph

/-- C5.  For every trace of delivered capture buffers (each carrying
`fpb` frames, the fixed PyAudio buffer size) and every positive flush
threshold: while capture is still running, the number of chunks handed
off equals `⌊total frames delivered / threshold-in-frames⌋`, the buffered
remainder is `deliveries mod threshold`, and the flush performed by
`stop_recording` hands off exactly one additional short chunk iff that
remainder is nonzero. -/
theorem chunk_count_floor (cfg : Cfg) (tr : List Act) (s s' : RecState)
    (hc : 0 < cfg.chunkSize) (hf : 0 < cfg.fpb)
    (hrun : run cfg tr = some s) (hph : s.phase = Phase.started)
    (hflush : step cfg s Act.flushStop = some s') :
    s.count = nDeliver tr * cfg.fpb / (cfg.chunkSize * cfg.fpb) ∧
    s.frames = nDeliver tr % cfg.chunkSize ∧
    s'.count = s.count +
      (if nDeliver tr * cfg.fpb % (cfg.chunkSize * cfg.fpb) = 0 then 0 else 1) := by
  obtain ⟨hdec, hlt⟩ := capture_decomposition cfg hc tr s hrun
    (by rw [hph]; exact ⟨by simp, by simp⟩)
  have hdiv : nDeliver tr / cfg.chunkSize = s.count := by
    rw [← hdec, Nat.add_comm, Nat.add_mul_div_right _ _ hc,
      Nat.div_eq_of_lt hlt, Nat.zero_add]
  have hmod : nDeliver tr % cfg.chunkSize = s.frames := by
    rw [← hdec, Nat.add_comm, Nat.add_mul_mod_self_right, Nat.mod_eq_of_lt hlt]
  have hdivf : nDeliver tr * cfg.fpb / (cfg.chunkSize * cfg.fpb) = s.count := by
    rw [Nat.mul_div_mul_right _ _ hf, hdiv]
  have hmodf : nDeliver tr * cfg.fpb % (cfg.chunkSize * cfg.fpb) = s.frames * cfg.fpb := by
    rw [Nat.mul_mod_mul_right, hmod]
  refine ⟨hdivf.symm, hmod.symm, ?_⟩
  simp only [step, hph, if_pos, Option.some.injEq] at hflush
  subst hflush
  by_cases hfr : 0 < s.frames
  · have : ¬ (nDeliver tr * cfg.fpb % (cfg.chunkSize * cfg.fpb) = 0) := by
      rw [hmodf]
      positivity
    simp [hfr, spawnChunk, this]
  · have h0 : s.frames = 0 := by omega
    have : nDeliver tr * cfg.fpb % (cfg.chunkSize * cfg.fpb) = 0 := by
      rw [hmodf, h0, Nat.zero_mul]
    simp [hfr, this]

theorem chunk_count_floor_witness :
    run ⟨"S", 2, 16000, 16000⟩
        [Act.openStream, Act.logStart, Act.deliver, Act.deliver, Act.deliver] =
      some ⟨Phase.started, 1, 1, [⟨1, 2⟩], 0, [LogRec.sessionStart "S"], [1]⟩ ∧
    step ⟨"S", 2, 16000, 16000⟩
        ⟨Phase.started, 1, 1, [⟨1, 2⟩], 0, [LogRec.sessionStart "S"], [1]⟩
        Act.flushStop =
      some ⟨Phase.draining, 0, 2, [⟨1, 2⟩, ⟨2, 1⟩], 0, [LogRec.sessionStart "S"],
        [1, 2]⟩ ∧
    ((⟨Phase.started, 1, 1, [⟨1, 2⟩], 0, [LogRec.sessionStart "S"], [1]⟩ :
        RecState).count =
      nDeliver [Act.openStream, Act.logStart, Act.deliver, Act.deliver, Act.deliver] *
        16000 / (2 * 16000) ∧
    (⟨Phase.started, 1, 1, [⟨1, 2⟩], 0, [LogRec.sessionStart "S"], [1]⟩ :
        RecState).frames =
      nDeliver [Act.openStream, Act.logStart, Act.deliver, Act.deliver, Act.deliver] % 2 ∧
    (⟨Phase.draining, 0, 2, [⟨1, 2⟩, ⟨2, 1⟩], 0, [LogRec.sessionStart "S"], [1, 2]⟩ :
        RecState).count =
      (⟨Phase.started, 1, 1, [⟨1, 2⟩], 0, [LogRec.sessionStart "S"], [1]⟩ :
        RecState).count +
      (if nDeliver [Act.openStream, Act.logStart, Act.deliver, Act.deliver,
          Act.deliver] * 16000 % (2 * 16000) = 0 then 0 else 1)) :=
  ⟨by decide, by decide,
    chunk_count_floor ⟨"S", 2, 16000, 16000⟩
      [Act.openStream, Act.logStart, Act.deliver, Act.deliver, Act.deliver]
      _ _ (by decide) (by decide) (by decide) (by decide) (by decide)⟩

theorem foldl_run1_none (cfg : Cfg) (l : List Act) :
    List.foldl (run1 cfg) none l = none := by
  induction l with
  | nil => rfl
  | cons a l ih => simpa [run1] using ih

theorem runFrom_cons (cfg : Cfg) (s : RecState) (a : Act) (l : List Act) :
    runFrom cfg s (a :: l) = (step cfg s a).bind (fun s1 => runFrom cfg s1 l) := by
  cases h : step cfg s a <;>
    simp [runFrom, run1, h, foldl_run1_none, List.foldl_cons]

/-- Once the session-end record is written the phase stays `stopped`:
only `complete` (a late save thread) remains enabled. -/
theorem step_stopped_phase (cfg : Cfg) (s s1 : RecState) (a : Act)
    (hph : s.phase = Phase.stopped) (hstep : step cfg s a = some s1) :
    s1.phase = Phase.stopped := by
  cases a with
  | complete i =>
    simp only [step] at hstep
    rcases hfind : s.pending.find? (fun t => t.idx == i) with _ | t <;>
      rw [hfind] at hstep
    · simp at hstep
    · simp only [Option.some.injEq] at hstep
      subst hstep
      simpa [completeTask] using hph
  | openStream => simp [step, hph] at hstep
  | logStart => simp [step, hph] at hstep
  | deliver => simp [step, hph] at hstep
  | flushStop => simp [step, hph] at hstep
  | logEnd => simp [step, hph] at hstep

/-- From a `stopped` state no continuation can execute a further
`logEnd`: a trace ending in `logEnd` fails. -/
theorem stopped_no_more_logEnd (cfg : Cfg) (l : List Act) :
    ∀ s : RecState, s.phase = Phase.stopped →
      runFrom cfg s (l ++ [Act.logEnd]) = none := by
  induction l with
  | nil =>
    intro s hph
    simp [runFrom, run1, step, hph]
  | cons a l ih =>
    intro s hph
    rw [List.cons_append, runFrom_cons]
    cases hstep : step cfg s a with
    | none => rfl
    | some s1 => simpa using ih s1 (step_stopped_phase cfg s s1 a hph hstep)

/-- Running a trace that begins with `start_recording`'s two halves
reaches the state with the session-start record written. -/
theorem run_after_start_steps (cfg : Cfg) (l : List Act) :
    run cfg (Act.openStream :: Act.logStart :: l) =
      runFrom cfg ⟨Phase.started, 0, 0, [], 0, [LogRec.sessionStart cfg.sid], []⟩ l := by
  show runFrom cfg initState _ = _
  simp [runFrom_cons, step, initState]

/-- A chunk record of the given session. -/
def isChunkOf (sid : String) (r : LogRec) : Prop :=
  ∃ i d, r = LogRec.chunkRec sid i d

/-- Log-shape invariant carried across the drain: starting from a state
whose log is the session-start record followed by chunk records only,
with the main thread between `logStart` and `logEnd`, any continuation
that terminates with the (unique) `logEnd` yields a log of the form
session-start, then chunk records, then session-end, in that file
order. -/
theorem middle_log_shape (cfg : Cfg) (mid : List Act) :
    ∀ s s' : RecState, (s.phase = Phase.started ∨ s.phase = Phase.draining) →
    (∃ chs, s.log = LogRec.sessionStart cfg.sid :: chs ∧ ∀ r ∈ chs, isChunkOf cfg.sid r) →
    runFrom cfg s (mid ++ [Act.logEnd]) = some s' →
    ∃ chs total cnt,
      s'.log = LogRec.sessionStart cfg.sid :: chs ++
        [LogRec.sessionEnd cfg.sid total cnt] ∧
      ∀ r ∈ chs, isChunkOf cfg.sid r := by
  induction mid with
  | nil =>
    intro s s' hph hlog h
    rcases hph with hph | hph
    · simp [runFrom, run1, step, hph] at h
    · simp only [List.nil_append, runFrom, List.foldl_cons, List.foldl_nil,
        run1, Option.some_bind, step, hph, if_pos, Option.some.injEq] at h
      obtain ⟨chs, hl, hch⟩ := hlog
      refine ⟨chs, halfEvenDiv (1000 * s.totalFrames : ℤ) cfg.rate, s.count, ?_, hch⟩
      rw [← h]
      simp [hl]
  | cons a mid ih =>
    intro s s' hph hlog h
    rw [List.cons_append, runFrom_cons] at h
    obtain ⟨s1, hstep, hrest⟩ := Option.bind_eq_some.mp h
    cases a with
    | openStream =>
      rcases hph with hph | hph <;> simp [step, hph] at hstep
    | logStart =>
      rcases hph with hph | hph <;> simp [step, hph] at hstep
    | deliver =>
      rcases hph with hph | hph
      · simp only [step, hph, Option.ite_none_right_eq_some, Option.some.injEq] at hstep
        obtain ⟨-, rfl⟩ := hstep
        refine ih _ s' ?_ ?_ hrest
        · by_cases hth : s.frames + 1 ≥ cfg.chunkSize <;>
            simp [hth, spawnChunk, hph]
        · obtain ⟨chs, hl, hch⟩ := hlog
          by_cases hth : s.frames + 1 ≥ cfg.chunkSize <;>
            exact ⟨chs, by simp [hth, spawnChunk, hl], hch⟩
      · simp [step, hph] at hstep
    | flushStop =>
      rcases hph with hph | hph
      · simp only [step, hph, Option.ite_none_right_eq_some, Option.some.injEq] at hstep
        obtain ⟨-, rfl⟩ := hstep
        refine ih _ s' (Or.inr (by simp)) ?_ hrest
        obtain ⟨chs, hl, hch⟩ := hlog
        by_cases hfr : 0 < s.frames <;>
          exact ⟨chs, by simp [hfr, spawnChunk, hl], hch⟩
      · simp [step, hph] at hstep
    | complete i =>
      simp only [step] at hstep
      rcases hfind : s.pending.find? (fun t => t.idx == i) with _ | t <;>
        rw [hfind] at hstep
      · simp at hstep
      · simp only [Option.some.injEq] at hstep
        subst hstep
        refine ih _ s' (by simpa [completeTask] using hph) ?_ hrest
        obtain ⟨chs, hl, hch⟩ := hlog
        refine ⟨chs ++ [LogRec.chunkRec cfg.sid t.idx (mdur cfg t)],
          by simp [completeTask, hl], ?_⟩
        intro r hr
        rcases List.mem_append.mp hr with hr | hr
        · exact hch r hr
        · simp only [List.mem_singleton] at hr
          exact ⟨t.idx, mdur cfg t, hr⟩
    | logEnd =>
      rcases hph with hph | hph
      · simp [step, hph] at hstep
      · simp only [step, hph, Option.ite_none_right_eq_some, Option.some.injEq] at hstep
        obtain ⟨-, rfl⟩ := hstep
        rw [stopped_no_more_logEnd cfg mid _ (by simp)] at hrest
        exact absurd hrest (by simp)

/-- C3, amended.  In every execution in which the session-start record is
written before any capture buffer is delivered (`logStart` immediately
follows the stream opening) and every chunk-save thread completes before
the session-end record is written (no save outlives the stop drain —
`logEnd` is the final action), the log is exactly: the `session-start`
record of the session, then only `chunk` records of that session, then
its `session-end` record; so `session-start` precedes every `chunk`
record and `session-end` follows every one of them in file order. -/
theorem session_log_order (cfg : Cfg) (mid : List Act) (s : RecState)
    (h : run cfg (Act.openStream :: Act.logStart :: mid ++ [Act.logEnd]) = some s) :
    ∃ chs total cnt,
      s.log = LogRec.sessionStart cfg.sid :: chs ++
        [LogRec.sessionEnd cfg.sid total cnt] ∧
      ∀ r ∈ chs, isChunkOf cfg.sid r := by
  have h2 : runFrom cfg ⟨Phase.started, 0, 0, [], 0,
      [LogRec.sessionStart cfg.sid], []⟩ (mid ++ [Act.logEnd]) = some s :=
    (run_after_start_steps cfg (mid ++ [Act.logEnd])).symm.trans h
  exact middle_log_shape cfg mid _ s (Or.inl rfl) ⟨[], rfl, by simp⟩ h2

/-- C3, counterexample.  When a chunk-save thread outlives the
stop-drain timeout, its `chunk` record is appended *after* the
`session-end` record: in this execution the final log is
session-start, session-end, chunk — a `chunk` record of the session
follows its `session-end` in file order, refuting the claim for
executions that include a save task outliving the drain timeout. -/
theorem session_log_order_cex :
    (run ⟨"S", 120, 16000, 16000⟩
        [Act.openStream, Act.logStart, Act.deliver, Act.flushStop,
          Act.logEnd, Act.complete 1]).map RecState.log =
      some [LogRec.sessionStart "S", LogRec.sessionEnd "S" 0 1,
        LogRec.chunkRec "S" 1 1000] := by
  decide

theorem session_log_order_witness :
    run ⟨"S", 1, 16000, 16000⟩
        (Act.openStream :: Act.logStart ::
          [Act.deliver, Act.complete 1, Act.flushStop] ++ [Act.logEnd]) =
      some ⟨Phase.stopped, 0, 1, [], 16000,
        [LogRec.sessionStart "S", LogRec.chunkRec "S" 1 1000,
          LogRec.sessionEnd "S" 1000 1], [1]⟩ ∧
    (∃ chs total cnt,
      (⟨Phase.stopped, 0, 1, [], 16000,
        [LogRec.sessionStart "S", LogRec.chunkRec "S" 1 1000,
          LogRec.sessionEnd "S" 1000 1], [1]⟩ : RecState).log =
        LogRec.sessionStart "S" :: chs ++ [LogRec.sessionEnd "S" total cnt] ∧
      ∀ r ∈ chs, isChunkOf "S" r) :=
  ⟨by decide,
    session_log_order ⟨"S", 1, 16000, 16000⟩
      [Act.deliver, Act.complete 1, Act.flushStop] _ (by decide)⟩

/-- Sum of the reported `duration_sec` values (in thousandths) over the
`chunk` records of a log. -/
def chunkMilliSum (l : List LogRec) : ℤ :=
  (l.filterMap fun r =>
    match r with
    | LogRec.chunkRec _ _ d => some d
    | _ => none).sum

theorem chunkMilliSum_append_chunk (l : List LogRec) (sid : String) (i : Nat) (d : ℤ) :
    chunkMilliSum (l ++ [LogRec.chunkRec sid i d]) = chunkMilliSum l + d := by
  simp [chunkMilliSum, List.filterMap_append]

theorem chunkMilliSum_start (l : List LogRec) (sid : String) :
    chunkMilliSum (LogRec.sessionStart sid :: l) = chunkMilliSum l := by
  simp [chunkMilliSum]

/-- Rounding an exact multiple is exact. -/
theorem halfEvenDiv_mul_cancel (k : ℤ) (b : Nat) (hb : 0 < b) :
    halfEvenDiv (k * b) b = k := by
  have hbz : (b : ℤ) ≠ 0 := by exact_mod_cast hb.ne'
  have hp : (0 : ℤ) < b := by exact_mod_cast hb
  simp [halfEvenDiv, Int.mul_fdiv_cancel k hbz, Int.mul_fmod_left, hp]

/-- Under the sample-rate divisibility that makes chunk durations exact
multiples of one thousandth of a second, the reported duration of a save
task is exact: `mdur · rate = 1000 · nbuf · fpb`. -/
theorem mdur_exact (cfg : Cfg) (t : SaveTask) (hr : 0 < cfg.rate)
    (hdvd : 1000 * cfg.fpb % cfg.rate = 0) :
    mdur cfg t * (cfg.rate : ℤ) = 1000 * ((t.nbuf : ℤ) * cfg.fpb) := by
  obtain ⟨m, hm⟩ := Nat.dvd_of_mod_eq_zero hdvd
  have key : (1000 : ℤ) * ((t.nbuf : ℤ) * cfg.fpb) = ((t.nbuf : ℤ) * m) * cfg.rate := by
    have hmz : (1000 : ℤ) * cfg.fpb = (cfg.rate : ℤ) * m := by exact_mod_cast hm
    ring_nf
    ring_nf at hmz
    nlinarith [hmz]
  rw [mdur, key, halfEvenDiv_mul_cancel _ _ hr]

/-- Duration bookkeeping across the drain: starting from a state whose
log is session-start followed by chunk records summing (exactly, in
thousandths) to the accumulated total frames, a continuation terminating
with the unique `logEnd` writes a session-end record whose reported
total equals the sum of the reported durations of the chunk records in
the final log. -/
theorem middle_total_duration (cfg : Cfg) (hr : 0 < cfg.rate)
    (hdvd : 1000 * cfg.fpb % cfg.rate = 0) (mid : List Act) :
    ∀ s s' : RecState, (s.phase = Phase.started ∨ s.phase = Phase.draining) →
    (∃ chs, s.log = LogRec.sessionStart cfg.sid :: chs ∧ ∀ r ∈ chs, isChunkOf cfg.sid r) →
    chunkMilliSum s.log * (cfg.rate : ℤ) = 1000 * s.totalFrames →
    runFrom cfg s (mid ++ [Act.logEnd]) = some s' →
    ∃ chs cnt,
      s'.log = LogRec.sessionStart cfg.sid :: chs ++
        [LogRec.sessionEnd cfg.sid (chunkMilliSum chs) cnt] ∧
      ∀ r ∈ chs, isChunkOf cfg.sid r := by
  induction mid with
  | nil =>
    intro s s' hph hlog hsum h
    rcases hph with hph | hph
    · simp [runFrom, run1, step, hph] at h
    · simp only [List.nil_append, runFrom, List.foldl_cons, List.foldl_nil,
        run1, Option.some_bind, step, hph, if_pos, Option.some.injEq] at h
      obtain ⟨chs, hl, hch⟩ := hlog
      have htot : (1000 * s.totalFrames : ℤ) = chunkMilliSum chs * cfg.rate := by
        rw [← hsum, hl, chunkMilliSum_start]
      refine ⟨chs, s.count, ?_, hch⟩
      rw [← h]
      simp only [hl]
      rw [htot, halfEvenDiv_mul_cancel _ _ hr]
  | cons a mid ih =>
    intro s s' hph hlog hsum h
    rw [List.cons_append, runFrom_cons] at h
    obtain ⟨s1, hstep, hrest⟩ := Option.bind_eq_some.mp h
    cases a with
    | openStream =>
      rcases hph with hph | hph <;> simp [step, hph] at hstep
    | logStart =>
      rcases hph with hph | hph <;> simp [step, hph] at hstep
    | deliver =>
      rcases hph with hph | hph
      · simp only [step, hph, Option.ite_none_right_eq_some, Option.some.injEq] at hstep
        obtain ⟨-, rfl⟩ := hstep
        refine ih _ s' ?_ ?_ ?_ hrest
        · by_cases hth : s.frames + 1 ≥ cfg.chunkSize <;>
            simp [hth, spawnChunk, hph]
        · obtain ⟨chs, hl, hch⟩ := hlog
          by_cases hth : s.frames + 1 ≥ cfg.chunkSize <;>
            exact ⟨chs, by simp [hth, spawnChunk, hl], hch⟩
        · by_cases hth : s.frames + 1 ≥ cfg.chunkSize <;>
            simpa [hth, spawnChunk] using hsum
      · simp [step, hph] at hstep
    | flushStop =>
      rcases hph with hph | hph
      · simp only [step, hph, Option.ite_none_right_eq_some, Option.some.injEq] at hstep
        obtain ⟨-, rfl⟩ := hstep
        refine ih _ s' (Or.inr (by simp)) ?_ ?_ hrest
        · obtain ⟨chs, hl, hch⟩ := hlog
          by_cases hfr : 0 < s.frames <;>
            exact ⟨chs, by simp [hfr, spawnChunk, hl], hch⟩
        · by_cases hfr : 0 < s.frames <;> simpa [hfr, spawnChunk] using hsum
      · simp [step, hph] at hstep
    | complete i =>
      simp only [step] at hstep
      rcases hfind : s.pending.find? (fun t => t.idx == i) with _ | t <;>
        rw [hfind] at hstep
      · simp at hstep
      · simp only [Option.some.injEq] at hstep
        subst hstep
        refine ih _ s' (by simpa [completeTask] using hph) ?_ ?_ hrest
        · obtain ⟨chs, hl, hch⟩ := hlog
          refine ⟨chs ++ [LogRec.chunkRec cfg.sid t.idx (mdur cfg t)],
            by simp [completeTask, hl], ?_⟩
          intro r hr'
          rcases List.mem_append.mp hr' with hr' | hr'
          · exact hch r hr'
          · simp only [List.mem_singleton] at hr'
            exact ⟨t.idx, mdur cfg t, hr'⟩
        · simp only [completeTask, chunkMilliSum_append_chunk]
          push_cast
          rw [Int.add_mul, hsum, mdur_exact cfg t hr hdvd]
          ring
    | logEnd =>
      rcases hph with hph | hph
      · simp [step, hph] at hstep
      · simp only [step, hph, Option.ite_none_right_eq_some, Option.some.injEq] at hstep
        obtain ⟨-, rfl⟩ := hstep
        rw [stopped_no_more_logEnd cfg mid _ (by simp)] at hrest
        exact absurd hrest (by simp)

/-- C4, amended.  Whenever every chunk-save thread completes before the
session-end record is written and every chunk duration is an exact
multiple of one thousandth of a second (the sample rate divides
`1000 · fpb`; the default 16 kHz rate with one-second buffers
qualifies), the `total_duration_sec` reported in the session-end record
equals the sum of the reported `duration_sec` values across the chunk
records of the session.  In general each reported value is rounded to
three decimals independently, so they may differ by rounding. -/
theorem session_end_total_equals_chunk_sum (cfg : Cfg) (mid : List Act) (s : RecState)
    (hr : 0 < cfg.rate) (hdvd : 1000 * cfg.fpb % cfg.rate = 0)
    (h : run cfg (Act.openStream :: Act.logStart :: mid ++ [Act.logEnd]) = some s) :
    ∃ chs cnt,
      s.log = LogRec.sessionStart cfg.sid :: chs ++
        [LogRec.sessionEnd cfg.sid (chunkMilliSum chs) cnt] ∧
      ∀ r ∈ chs, isChunkOf cfg.sid r := by
  have h2 : runFrom cfg ⟨Phase.started, 0, 0, [], 0,
      [LogRec.sessionStart cfg.sid], []⟩ (mid ++ [Act.logEnd]) = some s :=
    (run_after_start_steps cfg (mid ++ [Act.logEnd])).symm.trans h
  refine middle_total_duration cfg hr hdvd mid _ s (Or.inl rfl)
    ⟨[], rfl, by simp⟩ ?_ h2
  simp [chunkMilliSum]

/-- C4, counterexample.  With a 48 kHz device rate and the default
16000-frame buffers, each one-buffer chunk lasts exactly 1/3 s, reported
as `0.333`; after three such chunks the session-end total is the rounded
exact sum `1.0`.  The reported total `1.000` differs from the sum
`0.999` of the reported chunk durations, refuting the claim as stated. -/
theorem session_end_total_cex :
    (run ⟨"S", 1, 16000, 48000⟩
        [Act.openStream, Act.logStart, Act.deliver, Act.complete 1,
          Act.deliver, Act.complete 2, Act.deliver, Act.complete 3,
          Act.flushStop, Act.logEnd]).map RecState.log =
      some [LogRec.sessionStart "S",
        LogRec.chunkRec "S" 1 333, LogRec.chunkRec "S" 2 333,
        LogRec.chunkRec "S" 3 333, LogRec.sessionEnd "S" 1000 3] ∧
    chunkMilliSum [LogRec.chunkRec "S" 1 333, LogRec.chunkRec "S" 2 333,
      LogRec.chunkRec "S" 3 333] = 999 ∧ (999 : ℤ) ≠ 1000 := by
  refine ⟨by decide, by decide, by decide⟩

theorem session_end_total_witness :
    0 < 16000 ∧ 1000 * 16000 % 16000 = 0 ∧
    run ⟨"S", 1, 16000, 16000⟩
        (Act.openStream :: Act.logStart ::
          [Act.deliver, Act.complete 1, Act.flushStop] ++ [Act.logEnd]) =
      some ⟨Phase.stopped, 0, 1, [], 16000,
        [LogRec.sessionStart "S", LogRec.chunkRec "S" 1 1000,
          LogRec.sessionEnd "S" 1000 1], [1]⟩ ∧
    (∃ chs cnt,
      (⟨Phase.stopped, 0, 1, [], 16000,
        [LogRec.sessionStart "S", LogRec.chunkRec "S" 1 1000,
          LogRec.sessionEnd "S" 1000 1], [1]⟩ : RecState).log =
        LogRec.sessionStart "S" :: chs ++
          [LogRec.sessionEnd "S" (chunkMilliSum chs) cnt] ∧
      ∀ r ∈ chs, isChunkOf "S" r) :=
  ⟨by decide, by decide, by decide,
    session_end_total_equals_chunk_sum ⟨"S", 1, 16000, 16000⟩
      [Act.deliver, Act.complete 1, Act.flushStop] _
      (by decide) (by decide) (by decide)⟩

/-! ### Claims about `calculate_db_level` -/

theorem dbOfSamples_range (l : List ℤ) : 0 ≤ dbOfSamples l ∧ dbOfSamples l ≤ 120 := by
  simp only [dbOfSamples]
  split
  · exact ⟨le_max_left _ _, max_le (by norm_num) (min_le_left _ _)⟩
  · norm_num

theorem dbOfSamples_zero (l : List ℤ) (h : ∀ v ∈ l, v = 0) : dbOfSamples l = 0 := by
  have hsum : ((l.map fun (s : ℤ) => ((s : ℝ)) ^ 2).sum) = 0 := by
    apply List.sum_eq_zero
    intro x hx
    simp only [List.mem_map] at hx
    obtain ⟨v, hv, hxx⟩ := hx
    rw [← hxx, h v hv]
    norm_num
  simp only [dbOfSamples, hsum, zero_div, Real.sqrt_zero, lt_irrefl, if_false]

theorem dbOfSamples_full (l : List ℤ) (hne : l ≠ []) (hall : ∀ v ∈ l, v = 32767) :
    120 - 1/1000 ≤ dbOfSamples l ∧ dbOfSamples l ≤ 120 := by
  have hrep := List.eq_replicate_of_mem hall
  have hlen0 : l.length ≠ 0 := by
    rw [Ne, List.length_eq_zero]
    exact hne
  have hlenR : (l.length : ℝ) ≠ 0 := Nat.cast_ne_zero.mpr hlen0
  have hsum : ((l.map fun (s : ℤ) => ((s : ℝ)) ^ 2).sum) = (l.length : ℝ) * 32767 ^ 2 := by
    conv_lhs => rw [hrep]
    simp [List.map_replicate, List.sum_replicate, nsmul_eq_mul]
  have hrms : Real.sqrt (((l.map fun (s : ℤ) => ((s : ℝ)) ^ 2).sum) / l.length) = 32767 := by
    rw [hsum, mul_div_cancel_left₀ _ hlenR, Real.sqrt_sq (by norm_num)]
  have hLneg : Real.logb 10 ((32767 : ℝ) / 32768) < 0 :=
    Real.logb_neg (by norm_num) (by norm_num) (by norm_num)
  have hlog10 : (1 : ℝ) ≤ Real.log 10 := by
    rw [Real.le_log_iff_exp_le (by norm_num)]
    have := Real.exp_one_lt_d9
    linarith
  have hlogy : -1/32767 ≤ Real.log ((32767 : ℝ) / 32768) := by
    have h1 := Real.log_le_sub_one_of_pos (show (0 : ℝ) < 32768/32767 by norm_num)
    have h3 : Real.log ((32767 : ℝ) / 32768) = - Real.log ((32768 : ℝ) / 32767) := by
      rw [← Real.log_inv]
      norm_num
    rw [h3]
    have h2 : (32768 / 32767 - 1 : ℝ) = 1/32767 := by norm_num
    rw [h2] at h1
    linarith
  have hLlog : Real.logb 10 ((32767 : ℝ) / 32768) * Real.log 10 =
      Real.log ((32767 : ℝ) / 32768) := by
    rw [← Real.log_div_log]
    field_simp
  have hL_ge : -1/32767 ≤ Real.logb 10 ((32767 : ℝ) / 32768) := by
    have hstep : Real.log ((32767 : ℝ) / 32768) ≤ Real.logb 10 ((32767 : ℝ) / 32768) := by
      rw [← hLlog]
      nlinarith [mul_nonneg (neg_nonneg.mpr hLneg.le)
        (by linarith : (0 : ℝ) ≤ Real.log 10 - 1)]
    linarith
  have hx1 : 120 - 1/1000 ≤ 20 * Real.logb 10 ((32767 : ℝ) / 32768) + 120 := by
    linarith
  have hx2 : 20 * Real.logb 10 ((32767 : ℝ) / 32768) + 120 < 120 := by linarith
  simp only [dbOfSamples, hrms]
  rw [if_pos (by norm_num : (0 : ℝ) < 32767),
    min_eq_right hx2.le, max_eq_right (by linarith)]
  exact ⟨hx1, hx2.le⟩

theorem decodeInt16_all_zero : ∀ bs : List Nat, (∀ b ∈ bs, b = 0) →
    ∀ v ∈ decodeInt16 bs, v = 0
  | [], _, v, hv => by simp [decodeInt16] at hv
  | [b], _, v, hv => by simp [decodeInt16] at hv
  | b0 :: b1 :: rest, h, v, hv => by
    have h0 : b0 = 0 := h b0 (by simp)
    have h1 : b1 = 0 := h b1 (by simp)
    subst h0
    subst h1
    simp only [decodeInt16, List.mem_cons] at hv
    rcases hv with rfl | hv
    · decide
    · exact decodeInt16_all_zero rest (fun b hb => h b (by simp [hb])) v hv

/-- C7.  For every byte buffer the dB level lies in `[0, 120]`; an
all-zero buffer maps to `0`; a full-scale buffer (even byte count,
nonempty, every decoded sample at the maximum int16 amplitude `32767`)
maps to `120` within rounding tolerance (`[120 − 0.001, 120]`). -/
theorem db_level_range_and_extremes :
    (∀ audio_data : List Nat,
      0 ≤ calculate_db_level audio_data ∧ calculate_db_level audio_data ≤ 120) ∧
    (∀ audio_data : List Nat, (∀ b ∈ audio_data, b = 0) →
      calculate_db_level audio_data = 0) ∧
    (∀ audio_data : List Nat, audio_data.length % 2 = 0 →
      decodeInt16 audio_data ≠ [] →
      (∀ v ∈ decodeInt16 audio_data, v = 32767) →
      120 - 1/1000 ≤ calculate_db_level audio_data ∧
        calculate_db_level audio_data ≤ 120) := by
  refine ⟨?_, ?_, ?_⟩
  · intro bs
    by_cases h : bs.length % 2 ≠ 0
    · simp [calculate_db_level, h]
    · simp only [calculate_db_level, h, if_false]
      exact dbOfSamples_range _
  · intro bs hz
    by_cases h : bs.length % 2 ≠ 0
    · simp [calculate_db_level, h]
    · simp only [calculate_db_level, h, if_false]
      exact dbOfSamples_zero _ (decodeInt16_all_zero bs hz)
  · intro bs he hne hall
    have h : ¬ (bs.length % 2 ≠ 0) := by omega
    simp only [calculate_db_level, h, if_false]
    exact dbOfSamples_full _ hne hall

theorem db_level_witness :
    (0 ≤ calculate_db_level [1, 2] ∧ calculate_db_level [1, 2] ≤ 120) ∧
    ((∀ b ∈ ([0, 0] : List Nat), b = 0) ∧ calculate_db_level [0, 0] = 0) ∧
    (([255, 127] : List Nat).length % 2 = 0 ∧ decodeInt16 [255, 127] ≠ [] ∧
      (∀ v ∈ decodeInt16 [255, 127], v = 32767) ∧
      120 - 1/1000 ≤ calculate_db_level [255, 127] ∧
        calculate_db_level [255, 127] ≤ 120) :=
  ⟨db_level_range_and_extremes.1 [1, 2],
    ⟨by decide, db_level_range_and_extremes.2.1 [0, 0] (by decide)⟩,
    ⟨by decide, by decide, by decide,
      db_level_range_and_extremes.2.2 [255, 127] (by decide) (by decide) (by decide)⟩⟩
